import Mathlib

set_option maxRecDepth 4000

/-!
# Verification of the gamma-table generation core (`src/lib.rs`)

This file shallowly embeds the table-generation and validation engine of the
`gamma-table-macros` crate and proves properties about it.

The Rust core works on `f64`.  We model `f64` values by the type `F64` below:
a finite value is carried as the exact rational it denotes, plus separate
`nan` and signed-infinity constructors.  The fully specified IEEE-754
operations of the source (`u64 as f64` conversion, `*`, `/`, `f64::round`,
`as u64` saturating casts, `<=`) are embedded exactly: exact rational
arithmetic followed by round-to-nearest, ties-to-even at 53 significant bits
(with the subnormal precision floor at `2^(-1074)` and overflow to infinity
at `2^1024`).  The one operation the source uses whose value-level behaviour
is *not* specified anywhere (neither by Rust nor by IEEE-754) is
`f64::powf`; it is therefore a parameter `fpow` of the embedded functions.
The special cases that the C standard (Annex F) and every libm do guarantee
— `pow(0, e) = 0` for `e > 0` and `pow(1, e) = 1` for every `e` — are
captured by the predicate `PowfSpec` and assumed where a claim needs them.

Rational arithmetic inside the executable definitions is written with
`mkRat`-based helpers (`qadd`, `qmul`, `qdiv`, ...) rather than the standard
`ℚ` operations, because the latter are `@[irreducible]` and would block
kernel evaluation of concrete witnesses; the bridge lemmas `qadd_eq`,
`qmul_eq`, ... prove the helpers equal to the standard operations, and all
abstract reasoning goes through them.
-/

/-- Exact rational addition (kernel-evaluable; equals `a + b`). -/
def qadd (a b : ℚ) : ℚ := mkRat (a.num * b.den + b.num * a.den) (a.den * b.den)

/-- Exact rational multiplication (kernel-evaluable; equals `a * b`). -/
def qmul (a b : ℚ) : ℚ := mkRat (a.num * b.num) (a.den * b.den)

/-- Exact rational negation (kernel-evaluable; equals `-a`). -/
def qneg (a : ℚ) : ℚ := mkRat (-a.num) a.den

/-- Exact rational subtraction (kernel-evaluable; equals `a - b`). -/
def qsub (a b : ℚ) : ℚ := qadd a (qneg b)

/-- Exact rational inverse (kernel-evaluable; equals `a⁻¹`, with `0⁻¹ = 0`). -/
def qinv (a : ℚ) : ℚ :=
  if a.num < 0 then mkRat (-(a.den : ℤ)) (-a.num).toNat else mkRat a.den a.num.toNat

/-- Exact rational division (kernel-evaluable; equals `a / b`). -/
def qdiv (a b : ℚ) : ℚ := qmul a (qinv b)

/-- Floor of a rational (kernel-evaluable; equals `⌊q⌋`). -/
def qfloor (q : ℚ) : ℤ := q.num / (q.den : ℤ)

/-- Ceiling of a rational (kernel-evaluable; equals `⌈q⌉`). -/
def qceil (q : ℚ) : ℤ := -qfloor (qneg q)

/-- Absolute value of a rational (kernel-evaluable; equals `|q|`). -/
def qabs (q : ℚ) : ℚ := if q.num < 0 then qneg q else q

/-- The dyadic power `2 ^ e` as a rational (kernel-evaluable). -/
def qpow2 (e : ℤ) : ℚ := if 0 ≤ e then mkRat (2 ^ e.toNat) 1 else mkRat 1 (2 ^ (-e).toNat)

theorem qadd_eq (a b : ℚ) : qadd a b = a + b := by
  rw [qadd, Rat.mkRat_eq_div]
  push_cast
  conv_rhs => rw [← Rat.num_div_den a, ← Rat.num_div_den b]
  rw [div_add_div _ _ (by positivity) (by positivity)]
  congr 1
  ring

theorem qmul_eq (a b : ℚ) : qmul a b = a * b := by
  rw [qmul, Rat.mkRat_eq_div]
  push_cast
  conv_rhs => rw [← Rat.num_div_den a, ← Rat.num_div_den b]
  rw [div_mul_div_comm]

theorem qneg_eq (a : ℚ) : qneg a = -a := by
  rw [qneg, Rat.mkRat_eq_div]
  push_cast
  rw [neg_div, Rat.num_div_den]

theorem qsub_eq (a b : ℚ) : qsub a b = a - b := by
  rw [qsub, qadd_eq, qneg_eq, sub_eq_add_neg]

theorem qfloor_eq (q : ℚ) : qfloor q = Int.floor q := by
  rw [qfloor, Rat.floor_def]

theorem qceil_eq (q : ℚ) : qceil q = Int.ceil q := by
  rw [qceil, qfloor_eq, qneg_eq, Int.floor_neg, neg_neg]

theorem qabs_eq (q : ℚ) : qabs q = |q| := by
  rw [qabs]
  split
  · rename_i h
    have hq : q < 0 := lt_of_not_ge (fun hge => absurd (Rat.num_nonneg.mpr hge) (by omega))
    rw [qneg_eq, abs_of_neg hq]
  · rename_i h
    rw [abs_of_nonneg (Rat.num_nonneg.mp (by omega))]

theorem qinv_eq (a : ℚ) : qinv a = a⁻¹ := by
  rcases eq_or_ne a 0 with rfl | ha
  · rw [inv_zero]
    decide
  · have hnum : a.num ≠ 0 := Rat.num_ne_zero.mpr ha
    have hinv : a⁻¹ = (a.den : ℚ) / (a.num : ℚ) := by
      conv_lhs => rw [← Rat.num_div_den a]
      rw [inv_div]
    rw [qinv, hinv]
    split
    · rename_i h
      rw [Rat.mkRat_eq_div]
      have h1 : (((-a.num).toNat : ℕ) : ℚ) = -(a.num : ℚ) := by
        have h2 := Int.toNat_of_nonneg (by omega : (0:ℤ) ≤ -a.num)
        exact_mod_cast congrArg (fun z : ℤ => (z : ℚ)) h2
      rw [h1]
      push_cast
      rw [neg_div_neg_eq]
    · rename_i h
      rw [Rat.mkRat_eq_div]
      have h1 : ((a.num.toNat : ℕ) : ℚ) = (a.num : ℚ) := by
        have h2 := Int.toNat_of_nonneg (by omega : (0:ℤ) ≤ a.num)
        exact_mod_cast congrArg (fun z : ℤ => (z : ℚ)) h2
      rw [h1]
      push_cast
      rfl

theorem qdiv_eq (a b : ℚ) : qdiv a b = a / b := by
  rw [qdiv, qmul_eq, qinv_eq, div_eq_mul_inv]

theorem qpow2_eq (e : ℤ) : qpow2 e = (2:ℚ) ^ e := by
  rw [qpow2]
  split
  · rename_i h
    rw [Rat.mkRat_eq_div]
    push_cast
    rw [div_one, ← zpow_natCast, Int.toNat_of_nonneg h]
  · rename_i h
    rw [Rat.mkRat_eq_div]
    push_cast
    rw [← zpow_natCast, Int.toNat_of_nonneg (by omega : (0:ℤ) ≤ -e), zpow_neg, one_div, inv_inv]

/-- Model of an `f64` value: a finite double (carried as the exact rational
it denotes), a signed infinity (`inf true` is `-∞`, `inf false` is `+∞`),
or `nan`.  The sign of zero is not tracked (it is irrelevant to every
operation the source performs). -/
inductive F64 where
  | nan : F64
  | inf : Bool → F64
  | finite : ℚ → F64
deriving DecidableEq

/-- Round a rational to an integer, ties to even (the IEEE-754 default
rounding used for all arithmetic results). -/
def rte (x : ℚ) : ℤ :=
  let f := qfloor x
  let r := qsub x ((f : ℤ) : ℚ)
  if r < mkRat 1 2 then f
  else if mkRat 1 2 < r then f + 1
  else if f % 2 = 0 then f else f + 1

/-- Fuelled helper for the binary exponent of a rational `r ≥ 1`:
halve until the value drops below `2`, counting the halvings. -/
def qexpAux : ℕ → ℚ → ℤ → ℤ
  | 0, _, acc => acc
  | f + 1, r, acc => if r < 2 then acc else qexpAux f (qdiv r 2) (acc + 1)

/-- Fuelled helper for the binary exponent of a rational `0 < r < 1`:
double until the value reaches `1`, counting the doublings. -/
def qexpAux2 : ℕ → ℚ → ℤ → ℤ
  | 0, _, acc => acc
  | f + 1, r, acc => if 1 ≤ r then acc else qexpAux2 f (qmul r 2) (acc - 1)

/-- Binary exponent `⌊log₂ q⌋` of a positive rational, correct for
`2^(-5000) ≤ q < 2^5000` (far wider than anything a double-precision
computation can produce). -/
def qexp (q : ℚ) : ℤ :=
  if 1 ≤ q then qexpAux 5000 q 0 else qexpAux2 5000 q 0

/-- Round an exact rational to the nearest double-precision value
(returned as the rational it denotes): round to nearest, ties to even,
53 significant bits, with the subnormal precision floor `2^(-1074)`.
Overflow past `2^1024` is handled by `roundF`. -/
def roundQ (q : ℚ) : ℚ :=
  if q = 0 then 0
  else
    let e : ℤ := max (qexp (qabs q)) (-1022)
    let ulp : ℚ := qpow2 (e - 52)
    qmul ulp ((rte (qdiv q ulp) : ℤ) : ℚ)

/-- Round an exact rational result into an `F64`: nearest double, with
overflow to the correctly signed infinity. -/
def roundF (q : ℚ) : F64 :=
  let r := roundQ q
  if ((2 ^ 1024 : ℕ) : ℚ) ≤ r then F64.inf false
  else if r ≤ qneg ((2 ^ 1024 : ℕ) : ℚ) then F64.inf true
  else F64.finite r

/-- `u64 as f64` / `usize as f64`: exact value rounded to the nearest
double (never overflows for inputs below `2^1024`). -/
def f64ofNat (n : ℕ) : F64 := F64.finite (roundQ n)

/-- The `f64` comparison `a <= b` (false whenever either side is NaN). -/
def fle : F64 → F64 → Bool
  | F64.nan, _ => false
  | _, F64.nan => false
  | F64.inf true, _ => true
  | F64.inf false, F64.inf false => true
  | F64.inf false, _ => false
  | F64.finite _, F64.inf false => true
  | F64.finite _, F64.inf true => false
  | F64.finite a, F64.finite b => decide (a ≤ b)

/-- IEEE-754 double division. -/
def fdiv : F64 → F64 → F64
  | F64.nan, _ => F64.nan
  | _, F64.nan => F64.nan
  | F64.inf _, F64.inf _ => F64.nan
  | F64.inf s, F64.finite b => F64.inf (xor s (decide (b < 0)))
  | F64.finite _, F64.inf _ => F64.finite 0
  | F64.finite a, F64.finite b =>
      if b = 0 then (if a = 0 then F64.nan else F64.inf (decide (a < 0)))
      else roundF (qdiv a b)

/-- IEEE-754 double multiplication. -/
def fmul : F64 → F64 → F64
  | F64.nan, _ => F64.nan
  | _, F64.nan => F64.nan
  | F64.inf s, F64.inf t => F64.inf (xor s t)
  | F64.inf s, F64.finite b => if b = 0 then F64.nan else F64.inf (xor s (decide (b < 0)))
  | F64.finite a, F64.inf t => if a = 0 then F64.nan else F64.inf (xor t (decide (a < 0)))
  | F64.finite a, F64.finite b => roundF (qmul a b)

/-- Round half away from zero on rationals (the semantics of
`f64::round`; the result of rounding a finite double to an integer is
always exactly representable, so no re-rounding is needed). -/
def rha (q : ℚ) : ℚ :=
  if 0 ≤ q then ((qfloor (qadd q (mkRat 1 2)) : ℤ) : ℚ)
  else ((qceil (qsub q (mkRat 1 2)) : ℤ) : ℚ)

/-- `f64::round`: round half away from zero. -/
def fround : F64 → F64
  | F64.nan => F64.nan
  | F64.inf s => F64.inf s
  | F64.finite q => F64.finite (rha q)

/-- The Rust cast `as u64` on an `f64`: saturating — NaN goes to `0`,
values are truncated toward zero and clamped into `[0, 2^64 - 1]`. -/
def f64toU64 : F64 → ℕ
  | F64.nan => 0
  | F64.inf true => 0
  | F64.inf false => 2 ^ 64 - 1
  | F64.finite q => min (Int.toNat (qfloor q)) (2 ^ 64 - 1)

/-- The `usize` expression `size - 1` of the source under the wrapping
(release-build) semantics of unsigned subtraction; for every genuine
`usize` input `1 ≤ n < 2^64` this is the ordinary `n - 1`. -/
def usizeSub1 (n : ℕ) : ℕ := (n + 2 ^ 64 - 1) % 2 ^ 64

/-- Embedding of `generate_table_values` (src/lib.rs:260-286).  `fpow` is
the platform's `f64::powf`, kept abstract because its value-level
behaviour is unspecified. -/
def generate_table_values (fpow : F64 → F64 → F64) (size : ℕ) (gamma : F64)
    (max_value : ℕ) (decoding : Bool) : List ℕ :=
  let gamma_exponent := if decoding then fdiv (F64.finite 1) gamma else gamma
  (List.range size).map (fun i =>
    let normalized_input := fdiv (f64ofNat i) (f64ofNat (usizeSub1 size))
    let processed := fpow normalized_input gamma_exponent
    let output_value := f64toU64 (fround (fmul processed (f64ofNat max_value)))
    min output_value max_value)

/-- Embedding of `get_integer_type_max_value` (src/lib.rs:185-202): the
entry type is modelled by the identifier text of its last path segment. -/
def get_integer_type_max_value (entry_type : String) : Option ℕ :=
  if entry_type = "u8" then some 255
  else if entry_type = "u16" then some 65535
  else if entry_type = "u32" then some 4294967295
  else if entry_type = "u64" then some 18446744073709551615
  else none

/-- Embedding of the parsed macro input `GammaTableInput`
(src/lib.rs:109-116).  The `name` identifier is omitted: it only names
the emitted constant and carries the error span, neither of which
affects the computed table or which error is produced. -/
structure GammaTableInput where
  entry_type : String
  gamma : F64
  size : ℕ
  max_value : Option ℕ
  decoding : Option Bool

/-- The four validation failures of `generate_gamma_table`, with the
values interpolated into each source error message carried as payload
(`outputCeilingOverflow` names both the offending ceiling and the type
maximum, `unsupportedTargetWidth` names the rejected type). -/
inductive GammaError where
  | nonPositiveExponent : GammaError
  | tableTooSmall : GammaError
  | outputCeilingOverflow : ℕ → ℕ → GammaError
  | unsupportedTargetWidth : String → GammaError
deriving DecidableEq

/-- Embedding of `generate_gamma_table` (src/lib.rs:204-258), up to the
final token emission (the `const` array literal), which only serialises
the returned value list. -/
def generate_gamma_table (fpow : F64 → F64 → F64) (input : GammaTableInput) :
    Except GammaError (List ℕ) :=
  let max_value := input.max_value.getD (usizeSub1 input.size)
  let decoding := input.decoding.getD false
  if fle input.gamma (F64.finite 0) then Except.error GammaError.nonPositiveExponent
  else if input.size < 3 then Except.error GammaError.tableTooSmall
  else
    match get_integer_type_max_value input.entry_type with
    | some type_max =>
        if type_max < max_value then
          Except.error (GammaError.outputCeilingOverflow max_value type_max)
        else
          Except.ok (generate_table_values fpow input.size input.gamma max_value decoding)
    | none => Except.error (GammaError.unsupportedTargetWidth input.entry_type)

/-- `e` is a positive `f64` (a positive finite value or `+∞`). -/
def FPos (e : F64) : Prop := e = F64.inf false ∨ ∃ q : ℚ, e = F64.finite q ∧ 0 < q

/-- The special cases of `pow` that the C standard (Annex F) mandates and
every platform libm satisfies, and which are the only value-level facts
about `f64::powf` any proof here relies on: `pow(0, e) = 0` for positive
`e` (including `+∞`) and `pow(1, e) = 1` for every `e`. -/
def PowfSpec (fpow : F64 → F64 → F64) : Prop :=
  (∀ e, FPos e → fpow (F64.finite 0) e = F64.finite 0) ∧
  (∀ e, fpow (F64.finite 1) e = F64.finite 1)

/-- A concrete `powf` model used to instantiate witnesses and
counterexamples.  It satisfies `PowfSpec`, is exact on exponent `1`, and
returns the *correctly rounded* double results for the two interior
queries `pow(1/2, 2)` and `pow(1/2, 1/2)` (the latter's value is the
53-bit rounding of `√½`). -/
def powfModel : F64 → F64 → F64 := fun x e =>
  if x = F64.finite 1 then F64.finite 1
  else if x = F64.finite 0 then F64.finite 0
  else if e = F64.finite 1 then x
  else if x = F64.finite (mkRat 1 2) ∧ e = F64.finite 2 then F64.finite (mkRat 1 4)
  else if x = F64.finite (mkRat 1 2) ∧ e = F64.finite (mkRat 1 2) then
    F64.finite (mkRat 6369051672525773 9007199254740992)
  else x

theorem powfModel_spec : PowfSpec powfModel := by
  constructor
  · intro e _
    simp [powfModel]
  · intro e
    simp [powfModel]

/-! ### Arithmetic helper lemmas -/

theorem mkRat_half : (mkRat 1 2 : ℚ) = 1/2 := by
  rw [Rat.mkRat_eq_div]
  norm_num

theorem two_zpow_pos (m : ℤ) : (0:ℚ) < 2 ^ m := zpow_pos (by norm_num) m

theorem two_zpow_mono {m n : ℤ} (h : m ≤ n) : (2:ℚ) ^ m ≤ 2 ^ n :=
  zpow_le_zpow_right₀ (by norm_num) h

theorem two_zpow_ne_zero (m : ℤ) : (2:ℚ) ^ m ≠ 0 := ne_of_gt (two_zpow_pos m)

/-! ### Properties of the ties-to-even integer rounding `rte` -/

theorem rte_intCast (m : ℤ) : rte ((m : ℤ) : ℚ) = m := by
  simp only [rte, qfloor_eq, qsub_eq, mkRat_half, Int.floor_intCast, sub_self]
  norm_num

theorem rte_ge_floor (x : ℚ) : Int.floor x ≤ rte x := by
  simp only [rte, qfloor_eq, qsub_eq, mkRat_half]
  split
  · omega
  · split
    · omega
    · split <;> omega

theorem rte_le_floor_add_one (x : ℚ) : rte x ≤ Int.floor x + 1 := by
  simp only [rte, qfloor_eq, qsub_eq, mkRat_half]
  split
  · omega
  · split
    · omega
    · split <;> omega

theorem rte_le_of_lt (x : ℚ) (N : ℤ) (h : x < (N:ℚ)) : rte x ≤ N := by
  have h1 := rte_le_floor_add_one x
  have h2 : Int.floor x < N := Int.floor_lt.mpr h
  omega

theorem le_rte_of_le (x : ℚ) (N : ℤ) (h : (N:ℚ) ≤ x) : N ≤ rte x := by
  have h1 := rte_ge_floor x
  have h2 : N ≤ Int.floor x := Int.le_floor.mpr h
  omega

/-! ### Correctness of the binary-exponent search `qexp` -/

theorem qexpAux_correct : ∀ (f : ℕ) (r : ℚ) (acc : ℤ), 1 ≤ r → r < 2 ^ f →
    (2:ℚ) ^ (qexpAux f r acc - acc) ≤ r ∧ r < (2:ℚ) ^ (qexpAux f r acc - acc + 1) := by
  intro f
  induction f with
  | zero =>
    intro r acc h1 h2
    rw [pow_zero] at h2
    linarith
  | succ f ih =>
    intro r acc h1 h2
    rw [qexpAux]
    split
    · rename_i hr
      constructor
      · rw [sub_self, zpow_zero]
        exact h1
      · rw [sub_self, zero_add, zpow_one]
        exact hr
    · rename_i hr
      push_neg at hr
      rw [qdiv_eq]
      have hd1 : 1 ≤ r / 2 := by
        rw [le_div_iff₀ (by norm_num : (0:ℚ) < 2)]
        linarith
      have hd2 : r / 2 < 2 ^ f := by
        rw [div_lt_iff₀ (by norm_num : (0:ℚ) < 2)]
        calc r < 2 ^ (f + 1) := h2
        _ = 2 ^ f * 2 := by ring
      obtain ⟨l, u⟩ := ih (r / 2) (acc + 1) hd1 hd2
      constructor
      · have l2 := (le_div_iff₀ (by norm_num : (0:ℚ) < 2)).mp l
        have he : qexpAux f (r / 2) (acc + 1) - acc
            = (qexpAux f (r / 2) (acc + 1) - (acc + 1)) + 1 := by ring
        rw [he, zpow_add_one₀ (by norm_num : (2:ℚ) ≠ 0)]
        linarith
      · have u2 := (div_lt_iff₀ (by norm_num : (0:ℚ) < 2)).mp u
        have he : qexpAux f (r / 2) (acc + 1) - acc + 1
            = (qexpAux f (r / 2) (acc + 1) - (acc + 1) + 1) + 1 := by ring
        rw [he, zpow_add_one₀ (by norm_num : (2:ℚ) ≠ 0)]
        linarith

theorem qexpAux2_correct : ∀ (f : ℕ) (r : ℚ) (acc : ℤ), 0 < r → r < 2 →
    (2:ℚ) ^ (-(f:ℤ)) ≤ r →
    (2:ℚ) ^ (qexpAux2 f r acc - acc) ≤ r ∧ r < (2:ℚ) ^ (qexpAux2 f r acc - acc + 1) := by
  intro f
  induction f with
  | zero =>
    intro r acc h0 h2 hl
    rw [Nat.cast_zero, neg_zero, zpow_zero] at hl
    rw [qexpAux2, sub_self, zpow_zero, zero_add, zpow_one]
    exact ⟨hl, h2⟩
  | succ f ih =>
    intro r acc h0 h2 hl
    rw [qexpAux2]
    split
    · rename_i hr
      rw [sub_self, zpow_zero, zero_add, zpow_one]
      exact ⟨hr, h2⟩
    · rename_i hr
      push_neg at hr
      rw [qmul_eq]
      have hm1 : 0 < r * 2 := by linarith
      have hm2 : r * 2 < 2 := by linarith
      have hm3 : (2:ℚ) ^ (-(f:ℤ)) ≤ r * 2 := by
        have he : (-(f:ℤ)) = (-((f:ℕ)+1:ℕ) : ℤ) + 1 := by push_cast; ring
        rw [he, zpow_add_one₀ (by norm_num : (2:ℚ) ≠ 0)]
        have hr2 : (2:ℚ) ^ (-((f:ℕ)+1:ℕ) : ℤ) ≤ r := hl
        linarith
      obtain ⟨l, u⟩ := ih (r * 2) (acc - 1) hm1 hm2 hm3
      constructor
      · have he : qexpAux2 f (r * 2) (acc - 1) - (acc - 1)
            = (qexpAux2 f (r * 2) (acc - 1) - acc) + 1 := by ring
        rw [he, zpow_add_one₀ (by norm_num : (2:ℚ) ≠ 0)] at l
        linarith
      · have he : qexpAux2 f (r * 2) (acc - 1) - (acc - 1) + 1
            = (qexpAux2 f (r * 2) (acc - 1) - acc + 1) + 1 := by ring
        rw [he, zpow_add_one₀ (by norm_num : (2:ℚ) ≠ 0)] at u
        linarith

theorem qexp_correct (q : ℚ) (h0 : 0 < q) (hlo : (2:ℚ) ^ (-5000 : ℤ) ≤ q)
    (hhi : q < (2:ℚ) ^ (5000 : ℤ)) :
    (2:ℚ) ^ (qexp q) ≤ q ∧ q < (2:ℚ) ^ (qexp q + 1) := by
  rw [qexp]
  split
  · rename_i h1
    have h2 : q < 2 ^ (5000 : ℕ) := by
      have hcast : ((2:ℚ) ^ (5000 : ℤ)) = 2 ^ (5000 : ℕ) := by
        rw [← zpow_natCast]
        norm_num
      rw [← hcast]
      exact hhi
    obtain ⟨l, u⟩ := qexpAux_correct 5000 q 0 h1 h2
    rw [sub_zero] at l u
    exact ⟨l, u⟩
  · rename_i h1
    push_neg at h1
    have hl : (2:ℚ) ^ (-(5000:ℕ) : ℤ) ≤ q := by
      exact_mod_cast hlo
    obtain ⟨l, u⟩ := qexpAux2_correct 5000 q 0 h0 (by linarith) hl
    rw [sub_zero] at l u
    exact ⟨l, u⟩

theorem qexp_unique (q : ℚ) (E : ℤ) (h0 : 0 < q) (hlo : (2:ℚ) ^ (-5000 : ℤ) ≤ q)
    (hhi : q < (2:ℚ) ^ (5000 : ℤ)) (h1 : (2:ℚ) ^ E ≤ q) (h2 : q < (2:ℚ) ^ (E + 1)) :
    qexp q = E := by
  obtain ⟨l, u⟩ := qexp_correct q h0 hlo hhi
  by_contra hne
  rcases lt_or_gt_of_ne hne with hlt | hgt
  · have := two_zpow_mono (by omega : qexp q + 1 ≤ E)
    linarith
  · have := two_zpow_mono (by omega : E + 1 ≤ qexp q)
    linarith

/-! ### Properties of the double-precision rounding `roundQ` -/

theorem roundQ_zero : roundQ 0 = 0 := by
  simp [roundQ]

theorem qabs_natCast (n : ℕ) : qabs (n:ℚ) = (n:ℚ) := by
  rw [qabs_eq, abs_of_nonneg (by positivity)]

/-- If `q` is an integer multiple of its own ulp, rounding is exact. -/
theorem roundQ_eq_self_core (q : ℚ) (hq : q ≠ 0) (k E : ℤ)
    (hE : max (qexp (qabs q)) (-1022) = E)
    (hk : q = (k:ℚ) * 2 ^ (E - 52)) : roundQ q = q := by
  simp only [roundQ, if_neg hq, qmul_eq, qdiv_eq, qpow2_eq, hE]
  have hX : (2:ℚ) ^ (E - 52) ≠ 0 := two_zpow_ne_zero _
  have hdiv : q / (2:ℚ) ^ (E - 52) = (k:ℚ) := by
    rw [hk, mul_div_assoc, div_self hX, mul_one]
  rw [hdiv, rte_intCast, mul_comm]
  exact hk.symm

theorem two_zpow_strict {m n : ℤ} (h : m < n) : (2:ℚ) ^ m < 2 ^ n := by
  have h1 := two_zpow_mono (by omega : m + 1 ≤ n)
  have h2 : (2:ℚ) ^ (m + 1) = 2 ^ m * 2 := by
    rw [← zpow_add_one₀ (by norm_num : (2:ℚ) ≠ 0)]
  have h3 := two_zpow_pos m
  linarith

/-- Bracketing facts for the binary exponent of a `u64`-ranged natural. -/
theorem qexp_nat_bracket (n : ℕ) (h1 : 1 ≤ n) (h64 : n < 2 ^ 64) :
    (2:ℚ) ^ (qexp (n:ℚ)) ≤ (n:ℚ) ∧ (n:ℚ) < 2 ^ (qexp (n:ℚ) + 1) ∧
      0 ≤ qexp (n:ℚ) ∧ qexp (n:ℚ) ≤ 63 := by
  have hpos : (0:ℚ) < n := by exact_mod_cast h1
  have hn1 : (1:ℚ) ≤ n := by exact_mod_cast h1
  have h64q : (n:ℚ) < (2:ℚ) ^ (64:ℤ) := by
    rw [show ((64:ℤ)) = ((64:ℕ):ℤ) by norm_num, zpow_natCast]
    exact_mod_cast h64
  have hlo : (2:ℚ) ^ (-5000 : ℤ) ≤ (n:ℚ) := by
    have := two_zpow_mono (by norm_num : (-5000:ℤ) ≤ 0)
    rw [zpow_zero] at this
    linarith
  have hhi : (n:ℚ) < (2:ℚ) ^ (5000 : ℤ) := by
    have := two_zpow_mono (by norm_num : (64:ℤ) ≤ 5000)
    linarith
  obtain ⟨l, u⟩ := qexp_correct (n:ℚ) hpos hlo hhi
  refine ⟨l, u, ?_, ?_⟩
  · by_contra h
    push_neg at h
    have := two_zpow_mono (by omega : qexp (n:ℚ) + 1 ≤ 0)
    rw [zpow_zero] at this
    linarith
  · by_contra h
    push_neg at h
    have := two_zpow_mono (by omega : (64:ℤ) ≤ qexp (n:ℚ))
    linarith

/-- Naturals below `2^53` convert to `f64` exactly. -/
theorem roundQ_nat_exact (n : ℕ) (h1 : 1 ≤ n) (h53 : n < 2 ^ 53) : roundQ (n:ℚ) = n := by
  have h64 : n < 2 ^ 64 := lt_of_lt_of_le h53 (by norm_num)
  obtain ⟨l, u, hE0, _⟩ := qexp_nat_bracket n h1 h64
  have h53q : (n:ℚ) < (2:ℚ) ^ (53:ℤ) := by
    rw [show ((53:ℤ)) = ((53:ℕ):ℤ) by norm_num, zpow_natCast]
    exact_mod_cast h53
  have hE52 : qexp (n:ℚ) ≤ 52 := by
    by_contra h
    push_neg at h
    have := two_zpow_mono (by omega : (53:ℤ) ≤ qexp (n:ℚ))
    linarith
  have hq0 : ((n:ℚ)) ≠ 0 := by positivity
  apply roundQ_eq_self_core _ hq0 ((n:ℤ) * 2 ^ ((52 - qexp (n:ℚ)).toNat)) (qexp (n:ℚ))
  · rw [qabs_natCast]
    omega
  · push_cast
    rw [← zpow_natCast (2:ℚ) ((52 - qexp (n:ℚ)).toNat), Int.toNat_of_nonneg (by omega)]
    rw [mul_assoc, ← zpow_add₀ (by norm_num : (2:ℚ) ≠ 0)]
    rw [show (52 - qexp (n:ℚ)) + (qexp (n:ℚ) - 52) = 0 by ring, zpow_zero, mul_one]

/-- A value of the form `2^j * K` with `2^52 ≤ K ≤ 2^53` and small `j` is a
representable double, so rounding it is exact. -/
theorem roundQ_exact_of_pow_mul (j : ℕ) (K : ℤ) (hj : j ≤ 100)
    (hK1 : (2:ℤ) ^ 52 ≤ K) (hK2 : K ≤ (2:ℤ) ^ 53) :
    roundQ ((2:ℚ) ^ (j:ℤ) * (K:ℚ)) = (2:ℚ) ^ (j:ℤ) * (K:ℚ) := by
  have hKq1 : ((2:ℚ) ^ (52:ℤ)) ≤ (K:ℚ) := by
    rw [show ((52:ℤ)) = ((52:ℕ):ℤ) by norm_num, zpow_natCast]
    exact_mod_cast hK1
  have hKq2 : (K:ℚ) ≤ (2:ℚ) ^ (53:ℤ) := by
    rw [show ((53:ℤ)) = ((53:ℕ):ℤ) by norm_num, zpow_natCast]
    exact_mod_cast hK2
  have hq0 : (0:ℚ) < (2:ℚ) ^ (j:ℤ) * (K:ℚ) := by
    have hp := two_zpow_pos (j:ℤ)
    have h52 := two_zpow_pos (52:ℤ)
    nlinarith
  have hqne : ((2:ℚ) ^ (j:ℤ) * (K:ℚ)) ≠ 0 := ne_of_gt hq0
  have habs : qabs ((2:ℚ) ^ (j:ℤ) * (K:ℚ)) = (2:ℚ) ^ (j:ℤ) * (K:ℚ) := by
    rw [qabs_eq, abs_of_nonneg (le_of_lt hq0)]
  have hbl : (2:ℚ) ^ ((j:ℤ) + 52) ≤ (2:ℚ) ^ (j:ℤ) * (K:ℚ) := by
    rw [zpow_add₀ (by norm_num : (2:ℚ) ≠ 0)]
    have hp := two_zpow_pos (j:ℤ)
    nlinarith
  have hbu : (2:ℚ) ^ (j:ℤ) * (K:ℚ) ≤ (2:ℚ) ^ ((j:ℤ) + 53) := by
    rw [zpow_add₀ (by norm_num : (2:ℚ) ≠ 0)]
    have hp := two_zpow_pos (j:ℤ)
    nlinarith
  have hlo : (2:ℚ) ^ (-5000 : ℤ) ≤ (2:ℚ) ^ (j:ℤ) * (K:ℚ) :=
    le_trans (two_zpow_mono (by omega)) hbl
  have hhi : (2:ℚ) ^ (j:ℤ) * (K:ℚ) < (2:ℚ) ^ (5000 : ℤ) :=
    lt_of_le_of_lt hbu (two_zpow_strict (by omega))
  rcases eq_or_lt_of_le hK2 with hKeq | hKlt
  · -- K = 2^53 : the value is 2^(j+53), a power of two
    have hval : ((K:ℤ):ℚ) = (2:ℚ) ^ (53:ℤ) := by
      rw [hKeq]
      rw [show ((53:ℤ)) = ((53:ℕ):ℤ) by norm_num, zpow_natCast]
      push_cast
      norm_num
    have hv2 : (2:ℚ) ^ (j:ℤ) * (K:ℚ) = (2:ℚ) ^ ((j:ℤ) + 53) := by
      rw [hval, ← zpow_add₀ (by norm_num : (2:ℚ) ≠ 0)]
    have hexp : max (qexp (qabs ((2:ℚ) ^ (j:ℤ) * (K:ℚ)))) (-1022) = (j:ℤ) + 53 := by
      rw [habs]
      have huniq : qexp ((2:ℚ) ^ (j:ℤ) * (K:ℚ)) = (j:ℤ) + 53 := by
        apply qexp_unique _ _ hq0 hlo hhi
        · rw [hv2]
        · rw [hv2]
          exact two_zpow_strict (by omega)
      rw [huniq]
      exact max_eq_left (by omega)
    apply roundQ_eq_self_core _ hqne ((2:ℤ) ^ 52) ((j:ℤ) + 53) hexp
    rw [hv2, show ((j:ℤ) + 53 - 52) = (j:ℤ) + 1 by ring]
    have hc : (((2:ℤ) ^ 52 : ℤ) : ℚ) = (2:ℚ) ^ (52:ℤ) := by
      rw [show ((52:ℤ)) = ((52:ℕ):ℤ) by norm_num, zpow_natCast]
      push_cast
      norm_num
    rw [hc, ← zpow_add₀ (by norm_num : (2:ℚ) ≠ 0)]
    congr 1
    ring
  · -- 2^52 ≤ K < 2^53 : exponent is j + 52
    have hKq2' : (K:ℚ) < (2:ℚ) ^ (53:ℤ) := by
      rw [show ((53:ℤ)) = ((53:ℕ):ℤ) by norm_num, zpow_natCast]
      exact_mod_cast hKlt
    have hbu' : (2:ℚ) ^ (j:ℤ) * (K:ℚ) < (2:ℚ) ^ ((j:ℤ) + 53) := by
      rw [zpow_add₀ (by norm_num : (2:ℚ) ≠ 0)]
      have hp := two_zpow_pos (j:ℤ)
      nlinarith
    have hexp : max (qexp (qabs ((2:ℚ) ^ (j:ℤ) * (K:ℚ)))) (-1022) = (j:ℤ) + 52 := by
      rw [habs]
      have huniq : qexp ((2:ℚ) ^ (j:ℤ) * (K:ℚ)) = (j:ℤ) + 52 := by
        apply qexp_unique _ _ hq0 hlo hhi hbl
        rw [show ((j:ℤ) + 52 + 1) = (j:ℤ) + 53 by ring]
        exact hbu'
      rw [huniq]
      exact max_eq_left (by omega)
    apply roundQ_eq_self_core _ hqne K ((j:ℤ) + 52) hexp
    rw [show ((j:ℤ) + 52 - 52) = (j:ℤ) by ring]
    ring

theorem two_pow_52_cast : (((2:ℤ) ^ 52 : ℤ) : ℚ) = (2:ℚ) ^ (52:ℤ) := by
  rw [show ((52:ℤ)) = ((52:ℕ):ℤ) by norm_num, zpow_natCast]
  push_cast
  norm_num

theorem two_pow_53_cast : (((2:ℤ) ^ 53 : ℤ) : ℚ) = (2:ℚ) ^ (53:ℤ) := by
  rw [show ((53:ℤ)) = ((53:ℕ):ℤ) by norm_num, zpow_natCast]
  push_cast
  norm_num

/-- Converting a `u64`-ranged natural to a double yields a natural number
again, the conversion is idempotent, and the result stays within `2^64`. -/
theorem roundQ_nat (n : ℕ) (h64 : n < 2 ^ 64) :
    ∃ m : ℕ, roundQ (n:ℚ) = (m:ℚ) ∧ roundQ ((m:ℕ):ℚ) = (m:ℚ) ∧ m ≤ 2 ^ 64 := by
  rcases Nat.eq_zero_or_pos n with rfl | h1
  · refine ⟨0, ?_, ?_, by norm_num⟩ <;> simpa using roundQ_zero
  · obtain ⟨l, u, hE0, hE63⟩ := qexp_nat_bracket n h1 h64
    rcases le_or_lt (qexp (n:ℚ)) 52 with hE52 | hE53
    · have h53 : n < 2 ^ 53 := by
        have h2 := two_zpow_mono (by omega : qexp (n:ℚ) + 1 ≤ 53)
        have h3 : (n:ℚ) < 2 ^ (53:ℤ) := lt_of_lt_of_le u h2
        rw [show ((53:ℤ)) = ((53:ℕ):ℤ) by norm_num, zpow_natCast] at h3
        exact_mod_cast h3
      have hx := roundQ_nat_exact n h1 h53
      exact ⟨n, hx, hx, by omega⟩
    · have hEq : max (qexp (qabs (n:ℚ))) (-1022) = qexp (n:ℚ) := by
        rw [qabs_natCast]
        omega
      have hq0 : ((n:ℚ)) ≠ 0 := by positivity
      have hul : (0:ℚ) < 2 ^ (qexp (n:ℚ) - 52) := two_zpow_pos _
      have hunfold : roundQ (n:ℚ) = (2:ℚ) ^ (qexp (n:ℚ) - 52) *
          ((rte ((n:ℚ) / 2 ^ (qexp (n:ℚ) - 52)) : ℤ) : ℚ) := by
        simp only [roundQ, if_neg hq0, qmul_eq, qdiv_eq, qpow2_eq, hEq]
      have hxl : (2:ℚ) ^ (52:ℤ) ≤ (n:ℚ) / 2 ^ (qexp (n:ℚ) - 52) := by
        rw [le_div_iff₀ hul, ← zpow_add₀ (by norm_num : (2:ℚ) ≠ 0)]
        rw [show ((52:ℤ) + (qexp (n:ℚ) - 52)) = qexp (n:ℚ) by ring]
        exact l
      have hxu : (n:ℚ) / 2 ^ (qexp (n:ℚ) - 52) < (2:ℚ) ^ (53:ℤ) := by
        rw [div_lt_iff₀ hul, ← zpow_add₀ (by norm_num : (2:ℚ) ≠ 0)]
        rw [show ((53:ℤ) + (qexp (n:ℚ) - 52)) = qexp (n:ℚ) + 1 by ring]
        exact u
      have hK1 : (2:ℤ) ^ 52 ≤ rte ((n:ℚ) / 2 ^ (qexp (n:ℚ) - 52)) := by
        apply le_rte_of_le
        rw [two_pow_52_cast]
        exact hxl
      have hK2 : rte ((n:ℚ) / 2 ^ (qexp (n:ℚ) - 52)) ≤ (2:ℤ) ^ 53 := by
        apply rte_le_of_lt
        rw [two_pow_53_cast]
        exact hxu
      have hj : (((qexp (n:ℚ) - 52).toNat : ℕ) : ℤ) = qexp (n:ℚ) - 52 :=
        Int.toNat_of_nonneg (by omega)
      have hKt : (((rte ((n:ℚ) / 2 ^ (qexp (n:ℚ) - 52))).toNat : ℕ) : ℤ)
          = rte ((n:ℚ) / 2 ^ (qexp (n:ℚ) - 52)) :=
        Int.toNat_of_nonneg (by
          have := hK1
          omega)
      refine ⟨2 ^ (qexp (n:ℚ) - 52).toNat * (rte ((n:ℚ) / 2 ^ (qexp (n:ℚ) - 52))).toNat,
        ?_, ?_, ?_⟩
      · rw [hunfold]
        push_cast
        congr 1
        · rw [← zpow_natCast (2:ℚ) ((qexp (n:ℚ) - 52).toNat), hj]
        · exact_mod_cast (congrArg (fun z : ℤ => (z : ℚ)) hKt).symm
      · have hcast : ((2 ^ (qexp (n:ℚ) - 52).toNat *
              (rte ((n:ℚ) / 2 ^ (qexp (n:ℚ) - 52))).toNat : ℕ) : ℚ)
            = (2:ℚ) ^ (((qexp (n:ℚ) - 52).toNat : ℕ) : ℤ) *
              ((rte ((n:ℚ) / 2 ^ (qexp (n:ℚ) - 52)) : ℤ) : ℚ) := by
          push_cast
          congr 1
          · rw [← zpow_natCast (2:ℚ) ((qexp (n:ℚ) - 52).toNat)]
          · exact_mod_cast congrArg (fun z : ℤ => (z : ℚ)) hKt
        rw [hcast]
        apply roundQ_exact_of_pow_mul
        · omega
        · exact hK1
        · exact hK2
      · have hjb : (qexp (n:ℚ) - 52).toNat ≤ 11 := by omega
        have hKb : (rte ((n:ℚ) / 2 ^ (qexp (n:ℚ) - 52))).toNat ≤ 2 ^ 53 := by omega
        calc 2 ^ (qexp (n:ℚ) - 52).toNat * (rte ((n:ℚ) / 2 ^ (qexp (n:ℚ) - 52))).toNat
            ≤ 2 ^ 11 * 2 ^ 53 :=
              Nat.mul_le_mul (Nat.pow_le_pow_right (by norm_num) hjb) hKb
        _ = 2 ^ 64 := by norm_num

/-- Rounding a rational in the positive representable range stays positive. -/
theorem roundQ_pos (q : ℚ) (hlo : qpow2 (-1024) ≤ q) (hhi : q ≤ qpow2 1074) :
    0 < roundQ q := by
  rw [qpow2_eq] at hlo hhi
  have h0 : 0 < q := lt_of_lt_of_le (two_zpow_pos _) hlo
  have hq0 : q ≠ 0 := ne_of_gt h0
  have habs : qabs q = q := by rw [qabs_eq, abs_of_nonneg h0.le]
  have hrlo : (2:ℚ) ^ (-5000:ℤ) ≤ q := le_trans (two_zpow_mono (by norm_num)) hlo
  have hrhi : q < (2:ℚ) ^ (5000:ℤ) := lt_of_le_of_lt hhi (two_zpow_strict (by norm_num))
  obtain ⟨l, u⟩ := qexp_correct q h0 hrlo hrhi
  have hunfold : roundQ q = (2:ℚ) ^ (max (qexp q) (-1022) - 52) *
      ((rte (q / 2 ^ (max (qexp q) (-1022) - 52)) : ℤ) : ℚ) := by
    simp only [roundQ, if_neg hq0, qmul_eq, qdiv_eq, qpow2_eq, habs]
  have hul := two_zpow_pos (max (qexp q) (-1022) - 52)
  have hx1 : (1:ℚ) ≤ q / 2 ^ (max (qexp q) (-1022) - 52) := by
    rw [le_div_iff₀ hul, one_mul]
    rcases le_or_lt (-1022 : ℤ) (qexp q) with hc | hc
    · rw [max_eq_left hc]
      exact le_trans (two_zpow_mono (by omega)) l
    · rw [max_eq_right (by omega : qexp q ≤ (-1022:ℤ))]
      exact le_trans (two_zpow_mono (by norm_num)) hlo
  have hK : 1 ≤ rte (q / 2 ^ (max (qexp q) (-1022) - 52)) :=
    le_rte_of_le _ 1 (by exact_mod_cast hx1)
  rw [hunfold]
  have hKq : (1:ℚ) ≤ ((rte (q / 2 ^ (max (qexp q) (-1022) - 52)) : ℤ) : ℚ) := by
    exact_mod_cast hK
  exact mul_pos hul (by linarith)

/-! ### Helper lemmas about the embedded `f64` operations -/

theorem fmul_finite (a b : ℚ) : fmul (F64.finite a) (F64.finite b) = roundF (qmul a b) := rfl

theorem fdiv_finite (a b : ℚ) (hb : b ≠ 0) :
    fdiv (F64.finite a) (F64.finite b) = roundF (qdiv a b) := by
  simp [fdiv, hb]

theorem roundF_zero : roundF 0 = F64.finite 0 := by decide

theorem roundF_one : roundF 1 = F64.finite 1 := by decide

theorem roundF_of_nat (m : ℕ) (hmb : m ≤ 2 ^ 64) (hidem : roundQ ((m:ℕ):ℚ) = ((m:ℕ):ℚ)) :
    roundF ((m:ℕ):ℚ) = F64.finite ((m:ℕ):ℚ) := by
  simp only [roundF, hidem]
  rw [if_neg, if_neg]
  · rw [qneg_eq]
    intro hcon
    have h1 : (0:ℚ) < ((2 ^ 1024 : ℕ) : ℚ) := by positivity
    have h2 : (0:ℚ) ≤ ((m:ℕ):ℚ) := by positivity
    linarith
  · intro hcon
    have h1 : ((m:ℕ):ℚ) < ((2 ^ 1024 : ℕ) : ℚ) := by
      have : m < 2 ^ 1024 := lt_of_le_of_lt hmb (by norm_num)
      exact_mod_cast this
    linarith

theorem fdiv_zero_finite (b : ℚ) (hb : b ≠ 0) :
    fdiv (F64.finite 0) (F64.finite b) = F64.finite 0 := by
  rw [fdiv_finite _ _ hb, show qdiv 0 b = 0 by rw [qdiv_eq]; exact zero_div b, roundF_zero]

theorem fdiv_self_finite (r : ℚ) (hr : r ≠ 0) :
    fdiv (F64.finite r) (F64.finite r) = F64.finite 1 := by
  rw [fdiv_finite _ _ hr, show qdiv r r = 1 by rw [qdiv_eq]; exact div_self hr, roundF_one]

theorem fround_nat (m : ℕ) : fround (F64.finite ((m:ℕ):ℚ)) = F64.finite ((m:ℕ):ℚ) := by
  simp only [fround, rha]
  rw [if_pos (by positivity)]
  rw [qadd_eq, mkRat_half, qfloor_eq]
  rw [show ((m:ℕ):ℚ) = (((m:ℕ):ℤ):ℚ) by push_cast; norm_num]
  rw [Int.floor_int_add]
  norm_num

theorem fround_zero : fround (F64.finite 0) = F64.finite 0 := by decide

theorem f64toU64_zero : f64toU64 (F64.finite 0) = 0 := by decide

theorem f64toU64_nat (m : ℕ) : f64toU64 (F64.finite ((m:ℕ):ℚ)) = min m (2 ^ 64 - 1) := by
  simp only [f64toU64]
  rw [qfloor_eq, Int.floor_natCast]
  congr 1

theorem usizeSub1_eq (n : ℕ) (h1 : 1 ≤ n) (h2 : n < 2 ^ 64) : usizeSub1 n = n - 1 := by
  unfold usizeSub1
  omega

theorem f64ofNat_def (n : ℕ) : f64ofNat n = F64.finite (roundQ ((n:ℕ):ℚ)) := rfl

theorem f64ofNat_zero : f64ofNat 0 = F64.finite 0 := by
  rw [f64ofNat_def]
  norm_num [roundQ_zero]

theorem roundQ_subone_pos (size : ℕ) (h3 : 3 ≤ size) (h64 : size < 2 ^ 64) :
    0 < roundQ ((size - 1 : ℕ) : ℚ) := by
  apply roundQ_pos
  · have h1 : qpow2 (-1024) ≤ 1 := by
      rw [qpow2_eq]
      have := two_zpow_mono (by norm_num : (-1024:ℤ) ≤ 0)
      rw [zpow_zero] at this
      exact this
    have h2 : (1:ℚ) ≤ ((size - 1 : ℕ) : ℚ) := by
      have h2' : 1 ≤ size - 1 := by omega
      exact_mod_cast h2'
    linarith
  · calc ((size - 1 : ℕ) : ℚ) ≤ ((2 ^ 64 : ℕ) : ℚ) := Nat.cast_le.mpr (by omega)
    _ = (2:ℚ) ^ (64:ℤ) := by
        rw [show ((64:ℤ)) = ((64:ℕ):ℤ) by norm_num, zpow_natCast]
        push_cast
        norm_num
    _ ≤ (2:ℚ) ^ (1074:ℤ) := two_zpow_mono (by norm_num)
    _ = qpow2 1074 := (qpow2_eq _).symm

/-- The effective exponent chosen by `generate_table_values` is a positive
`f64` whenever `gamma` is a genuine positive finite double. -/
theorem gammaExponent_FPos (gamma : F64) (g : ℚ) (hγ : gamma = F64.finite g) (hg : 0 < g)
    (hglo : qpow2 (-1074) ≤ g) (hghi : g ≤ qpow2 1024) (dec : Bool) :
    FPos (if dec then fdiv (F64.finite 1) gamma else gamma) := by
  cases dec
  · simp only [Bool.false_eq_true, if_false]
    exact Or.inr ⟨g, hγ, hg⟩
  · simp only [if_true]
    rw [hγ, fdiv_finite _ _ (ne_of_gt hg), show qdiv 1 g = 1/g by rw [qdiv_eq]]
    have h1lo : qpow2 (-1024) ≤ 1/g := by
      rw [qpow2_eq, le_div_iff₀ hg]
      rw [qpow2_eq] at hghi
      calc (2:ℚ) ^ (-1024:ℤ) * g ≤ 2 ^ (-1024:ℤ) * 2 ^ (1024:ℤ) := by
            have hp := two_zpow_pos (-1024:ℤ)
            nlinarith
      _ = 1 := by
            rw [← zpow_add₀ (by norm_num : (2:ℚ) ≠ 0)]
            norm_num
    have h1hi : 1/g ≤ qpow2 1074 := by
      rw [qpow2_eq, div_le_iff₀ hg]
      rw [qpow2_eq] at hglo
      calc (1:ℚ) = 2 ^ (-1074:ℤ) * 2 ^ (1074:ℤ) := by
            rw [← zpow_add₀ (by norm_num : (2:ℚ) ≠ 0)]
            norm_num
      _ ≤ g * 2 ^ (1074:ℤ) := by
            have hp := two_zpow_pos (1074:ℤ)
            nlinarith
      _ = 2 ^ (1074:ℤ) * g := mul_comm _ _
    have hpos := roundQ_pos (1/g) h1lo h1hi
    simp only [roundF]
    split
    · exact Or.inl rfl
    · split
      · rename_i h1 h2
        exfalso
        rw [qneg_eq] at h2
        have hbig : (0:ℚ) < ((2 ^ 1024 : ℕ) : ℚ) := by positivity
        linarith
      · exact Or.inr ⟨_, rfl, hpos⟩

/-- The `i`-th entry of the computed table, written out. -/
theorem gtv_get (fpow : F64 → F64 → F64) (size : ℕ) (gamma : F64) (maxv : ℕ) (dec : Bool)
    (i : ℕ) (h : i < size) :
    (generate_table_values fpow size gamma maxv dec).get? i =
      some (min (f64toU64 (fround (fmul
        (fpow (fdiv (f64ofNat i) (f64ofNat (usizeSub1 size)))
              (if dec then fdiv (F64.finite 1) gamma else gamma))
        (f64ofNat maxv)))) maxv) := by
  simp only [generate_table_values, List.get?_map, List.get?_range h, Option.map_some']

/-- Entry `0` of the table is `0` for any `powf` obeying `pow(0, e) = 0`
(positive `e`) as soon as the effective exponent is positive. -/
theorem gtv_first (fpow : F64 → F64 → F64) (size : ℕ) (gamma : F64) (maxv : ℕ) (dec : Bool)
    (hpow : ∀ e, FPos e → fpow (F64.finite 0) e = F64.finite 0)
    (hge : FPos (if dec then fdiv (F64.finite 1) gamma else gamma))
    (h3 : 3 ≤ size) (h64 : size < 2 ^ 64) :
    (generate_table_values fpow size gamma maxv dec).get? 0 = some 0 := by
  rw [gtv_get fpow size gamma maxv dec 0 (by omega)]
  rw [usizeSub1_eq size (by omega) h64, f64ofNat_zero, f64ofNat_def (size - 1)]
  rw [fdiv_zero_finite _ (ne_of_gt (roundQ_subone_pos size h3 h64))]
  rw [hpow _ hge]
  rw [f64ofNat_def maxv, fmul_finite]
  rw [show qmul 0 (roundQ ((maxv:ℕ):ℚ)) = 0 by rw [qmul_eq, zero_mul]]
  rw [roundF_zero, fround_zero, f64toU64_zero]
  simp

/-- Entry `size - 1` of the table, for any `powf` obeying `pow(1, e) = 1`:
it is the converted ceiling, clamped by the saturating cast and by the
final `min`.  Note it does not depend on the mode. -/
theorem gtv_last (fpow : F64 → F64 → F64) (size : ℕ) (gamma : F64) (maxv : ℕ) (dec : Bool)
    (hpow1 : ∀ e, fpow (F64.finite 1) e = F64.finite 1)
    (h3 : 3 ≤ size) (h64 : size < 2 ^ 64) (hmax : maxv < 2 ^ 64) :
    ∃ m : ℕ, roundQ ((maxv:ℕ):ℚ) = ((m:ℕ):ℚ) ∧ m ≤ 2 ^ 64 ∧
      (generate_table_values fpow size gamma maxv dec).get? (size - 1) =
        some (min (min m (2 ^ 64 - 1)) maxv) := by
  obtain ⟨m, hm, hmidem, hmb⟩ := roundQ_nat maxv hmax
  refine ⟨m, hm, hmb, ?_⟩
  rw [gtv_get fpow size gamma maxv dec (size - 1) (by omega)]
  rw [usizeSub1_eq size (by omega) h64, f64ofNat_def (size - 1)]
  rw [fdiv_self_finite _ (ne_of_gt (roundQ_subone_pos size h3 h64))]
  rw [hpow1]
  rw [f64ofNat_def maxv, fmul_finite]
  rw [show qmul 1 (roundQ ((maxv:ℕ):ℚ)) = roundQ ((maxv:ℕ):ℚ) by rw [qmul_eq, one_mul]]
  rw [hm, roundF_of_nat m hmb hmidem, fround_nat m, f64toU64_nat m]

/-! ### Validator helper lemmas -/

theorem fle_finite_zero_false (g : ℚ) (hg : 0 < g) :
    fle (F64.finite g) (F64.finite 0) = false := by
  simp [fle, not_le.mpr hg]

/-- The success path of `generate_gamma_table`: gamma passes the sign
check, the size is at least 3, the entry type is supported and the
resolved ceiling fits it. -/
theorem generate_ok (fpow : F64 → F64 → F64) (input : GammaTableInput) (L : ℕ)
    (hg : fle input.gamma (F64.finite 0) = false) (h3 : 3 ≤ input.size)
    (hL : get_integer_type_max_value input.entry_type = some L)
    (hmv : input.max_value.getD (usizeSub1 input.size) ≤ L) :
    generate_gamma_table fpow input =
      Except.ok (generate_table_values fpow input.size input.gamma
        (input.max_value.getD (usizeSub1 input.size)) (input.decoding.getD false)) := by
  simp only [generate_gamma_table, hg, Bool.false_eq_true, if_false, hL]
  rw [if_neg (by omega : ¬ input.size < 3),
    if_neg (by omega : ¬ L < input.max_value.getD (usizeSub1 input.size))]


theorem qpow2_neg1074_le (g : ℚ) (hg : 1 ≤ g) : qpow2 (-1074) ≤ g := by
  rw [qpow2_eq]
  have h := two_zpow_mono (by norm_num : (-1074:ℤ) ≤ 0)
  rw [zpow_zero] at h
  linarith

theorem le_qpow2_1024 (g : ℚ) (hg : g ≤ 2) : g ≤ qpow2 1024 := by
  rw [qpow2_eq]
  have h := two_zpow_mono (by norm_num : (1:ℤ) ≤ 1024)
  rw [zpow_one] at h
  linarith

/-! ### The claims -/

/-- C2 counterexample.  The configuration `entry_type u64, gamma 1.0,
size 3, max_value 2^53 + 1` is accepted by the validator, but the last
table entry is `2^53`, not the requested ceiling `2^53 + 1`: converting
the ceiling to `f64` (`max_value as f64` in the scale step) rounds it
down to `2^53`, and `pow(1, 1) = 1` leaves exactly that converted value.
The `powf` model used is exact at every queried point (`pow(x, 1) = x`,
`pow(0, ·) = 0`, `pow(1, ·) = 1`), so any IEEE-conforming libm produces
the same table. -/
theorem c2_counterexample :
    PowfSpec powfModel ∧
    generate_gamma_table powfModel
        ⟨"u64", F64.finite 1, 3, some 9007199254740993, none⟩ =
      Except.ok [0, 4503599627370496, 9007199254740992] ∧
    (9007199254740992 : ℕ) ≠ 9007199254740993 :=
  ⟨powfModel_spec, by rfl, by norm_num⟩

/-- C2 (amended): for every configuration accepted by the validator whose
gamma is a genuine positive finite double and, additionally, whose
output ceiling is not rounded *down* by conversion to `f64` (true in
particular for every ceiling below `2^53`, hence for all `u8`/`u16`/`u32`
ceilings), the first entry is exactly `0` and the last entry is exactly
`output_ceiling`, in both Encode and Decode modes, for any `powf`
satisfying the IEEE special cases. -/
theorem c2_endpoints (fpow : F64 → F64 → F64) (hspec : PowfSpec fpow)
    (gamma : F64) (g : ℚ) (hγ : gamma = F64.finite g) (hg : 0 < g)
    (hglo : qpow2 (-1074) ≤ g) (hghi : g ≤ qpow2 1024)
    (size maxv : ℕ) (h3 : 3 ≤ size) (h64 : size < 2 ^ 64) (hmax : maxv < 2 ^ 64)
    (hrep : ((maxv:ℕ):ℚ) ≤ roundQ ((maxv:ℕ):ℚ)) (dec : Bool) :
    (generate_table_values fpow size gamma maxv dec).get? 0 = some 0 ∧
    (generate_table_values fpow size gamma maxv dec).get? (size - 1) = some maxv := by
  constructor
  · exact gtv_first fpow size gamma maxv dec hspec.1
      (by rw [hγ]; exact gammaExponent_FPos _ g rfl hg hglo hghi dec) h3 h64
  · obtain ⟨m, hm, hmb, hlast⟩ := gtv_last fpow size gamma maxv dec hspec.2 h3 h64 hmax
    rw [hlast]
    have hmm : maxv ≤ m := by
      rw [hm] at hrep
      exact_mod_cast hrep
    have hmin : min (min m (2 ^ 64 - 1)) maxv = maxv := by omega
    rw [hmin]

/-- C2 witness: a concrete in-range instantiation (u8-style ceiling 255). -/
theorem c2_endpoints_witness :
    (generate_table_values powfModel 3 (F64.finite 1) 255 false).get? 0 = some 0 ∧
    (generate_table_values powfModel 3 (F64.finite 1) 255 false).get? 2 = some 255 :=
  c2_endpoints powfModel powfModel_spec (F64.finite 1) 1 rfl (by norm_num)
    (qpow2_neg1074_le 1 (by norm_num)) (le_qpow2_1024 1 (by norm_num)) 3 255
    (by norm_num) (by norm_num) (by norm_num) (by decide) false

/-- C3: whenever `generate_gamma_table` succeeds, the table has exactly
`size` entries, every entry is at most the resolved output ceiling, and
(since the validator enforced `ceiling ≤ type_max`) every entry fits the
declared target width.  This holds for an arbitrary `powf`: the
saturating `u64` cast and the final `min` clamp every entry. -/
theorem c3_table_shape (fpow : F64 → F64 → F64) (input : GammaTableInput) (t : List ℕ)
    (h : generate_gamma_table fpow input = Except.ok t) :
    t.length = input.size ∧
    (∀ v ∈ t, v ≤ input.max_value.getD (usizeSub1 input.size)) ∧
    (∀ L, get_integer_type_max_value input.entry_type = some L → ∀ v ∈ t, v ≤ L) := by
  simp only [generate_gamma_table] at h
  split at h
  · simp at h
  · split at h
    · simp at h
    · split at h
      · rename_i L heq
        split at h
        · simp at h
        · rename_i hnlt
          injection h with h
          subst h
          refine ⟨by simp [generate_table_values], ?_, ?_⟩
          · intro v hv
            simp only [generate_table_values, List.mem_map] at hv
            obtain ⟨i, -, hi⟩ := hv
            omega
          · intro L' hL' v hv
            rw [heq] at hL'
            injection hL' with hL'
            subst hL'
            simp only [generate_table_values, List.mem_map] at hv
            obtain ⟨i, -, hi⟩ := hv
            omega
      · simp at h

/-- C3 witness. -/
theorem c3_witness :
    ([0, 128, 255] : List ℕ).length = (3:ℕ) ∧
    (∀ v ∈ ([0, 128, 255] : List ℕ), v ≤ (some 255 : Option ℕ).getD (usizeSub1 3)) ∧
    (∀ L, get_integer_type_max_value "u8" = some L → ∀ v ∈ ([0, 128, 255] : List ℕ), v ≤ L) :=
  c3_table_shape powfModel ⟨"u8", F64.finite 1, 3, some 255, none⟩ [0, 128, 255] (by rfl)

/-- C4: under a positive exponent and `size ≥ 3`, the validator maps the
four supported widths to exactly 255 / 65535 / 2^32-1 / 2^64-1; generation
fails with `outputCeilingOverflow` (carrying both the offending ceiling
and the limit, exactly the two values interpolated into the source error
message) precisely when the resolved ceiling exceeds the width's
maximum, succeeds otherwise, and an unsupported width fails with
`unsupportedTargetWidth` instead. -/
theorem c4_ceiling_validation (fpow : F64 → F64 → F64) (gamma : F64) (g : ℚ)
    (hγ : gamma = F64.finite g) (hg : 0 < g) (size : ℕ) (h3 : 3 ≤ size)
    (et : String) (mv : Option ℕ) (dec : Option Bool) :
    (get_integer_type_max_value "u8" = some 255 ∧
     get_integer_type_max_value "u16" = some 65535 ∧
     get_integer_type_max_value "u32" = some 4294967295 ∧
     get_integer_type_max_value "u64" = some 18446744073709551615) ∧
    (∀ L, get_integer_type_max_value et = some L →
      ((generate_gamma_table fpow ⟨et, gamma, size, mv, dec⟩ =
          Except.error (GammaError.outputCeilingOverflow (mv.getD (usizeSub1 size)) L)
        ↔ L < mv.getD (usizeSub1 size)) ∧
       (mv.getD (usizeSub1 size) ≤ L →
        generate_gamma_table fpow ⟨et, gamma, size, mv, dec⟩ =
          Except.ok (generate_table_values fpow size gamma (mv.getD (usizeSub1 size))
            (dec.getD false))))) ∧
    (get_integer_type_max_value et = none →
      generate_gamma_table fpow ⟨et, gamma, size, mv, dec⟩ =
        Except.error (GammaError.unsupportedTargetWidth et)) := by
  subst hγ
  have hfle : fle (F64.finite g) (F64.finite 0) = false := fle_finite_zero_false g hg
  refine ⟨⟨rfl, rfl, rfl, rfl⟩, ?_, ?_⟩
  · intro L hL
    constructor
    · constructor
      · intro h
        by_contra hnot
        push_neg at hnot
        rw [generate_ok fpow _ L hfle h3 hL hnot] at h
        simp at h
      · intro hlt
        simp only [generate_gamma_table, hfle, Bool.false_eq_true, if_false, hL]
        rw [if_neg (by omega : ¬ (size:ℕ) < 3), if_pos hlt]
    · intro hle
      exact generate_ok fpow _ L hfle h3 hL hle
  · intro hnone
    simp only [generate_gamma_table, hfle, Bool.false_eq_true, if_false, hnone]
    rw [if_neg (by omega : ¬ (size:ℕ) < 3)]

/-- C4 witness: concrete overflow, success, and unsupported-width cases. -/
theorem c4_witness :
    generate_gamma_table powfModel ⟨"u8", F64.finite 1, 3, some 300, none⟩ =
      Except.error (GammaError.outputCeilingOverflow 300 255) ∧
    generate_gamma_table powfModel ⟨"i32", F64.finite 1, 3, some 100, none⟩ =
      Except.error (GammaError.unsupportedTargetWidth "i32") := by
  have h := c4_ceiling_validation powfModel (F64.finite 1) 1 rfl (by norm_num) 3 (by norm_num)
  constructor
  · exact ((h "u8" (some 300) none).2.1 255 rfl).1.mpr (by norm_num)
  · exact (h "i32" (some 100) none).2.2 rfl

/-- C5 counterexample.  A configuration with `size = 2` *and* a
non-positive exponent fails with `nonPositiveExponent`, not
`tableTooSmall`: the exponent check runs first (consistent with C6), so
the claim "every configuration with `size < 3` fails with
`TableTooSmall`" is false as stated. -/
theorem c5_counterexample :
    generate_gamma_table powfModel ⟨"u8", F64.finite 0, 2, none, none⟩ =
      Except.error GammaError.nonPositiveExponent ∧
    (Except.error GammaError.nonPositiveExponent : Except GammaError (List ℕ)) ≠
      Except.error GammaError.tableTooSmall :=
  ⟨by rfl, by simp⟩

/-- C5 (amended): for every configuration with a *positive* exponent and
`size < 3` (size 0, 1 or 2, whether or not `max_value` is supplied, for
any entry type and mode), generation fails with `tableTooSmall` and
never returns a table; and `size = 3` with otherwise valid fields
succeeds with a 3-entry table whose first entry is `0`. -/
theorem c5_small_size (fpow : F64 → F64 → F64) (hspec : PowfSpec fpow)
    (g : ℚ) (hg : 0 < g) (hglo : qpow2 (-1074) ≤ g) (hghi : g ≤ qpow2 1024) :
    (∀ et mv dec size, size < 3 →
      generate_gamma_table fpow ⟨et, F64.finite g, size, mv, dec⟩ =
        Except.error GammaError.tableTooSmall) ∧
    (∀ et L mv dec, get_integer_type_max_value et = some L →
      (mv : Option ℕ).getD 2 ≤ L →
      ∃ t, generate_gamma_table fpow ⟨et, F64.finite g, 3, mv, dec⟩ = Except.ok t ∧
        t.length = 3 ∧ t.get? 0 = some 0) := by
  have hfle : fle (F64.finite g) (F64.finite 0) = false := fle_finite_zero_false g hg
  constructor
  · intro et mv dec size hsize
    simp only [generate_gamma_table, hfle, Bool.false_eq_true, if_false]
    rw [if_pos hsize]
  · intro et L mv dec hL hmv
    have hsub : usizeSub1 3 = 2 := by decide
    refine ⟨_, generate_ok fpow ⟨et, F64.finite g, 3, mv, dec⟩ L hfle (by norm_num) hL
      (by rw [show usizeSub1 3 = 2 from hsub]; exact hmv), ?_, ?_⟩
    · simp [generate_table_values]
    · exact gtv_first fpow 3 (F64.finite g) _ _ hspec.1
        (gammaExponent_FPos _ g rfl hg hglo hghi _) (by norm_num) (by norm_num)

/-- C5 witness: size 2 fails with `tableTooSmall`, size 3 succeeds. -/
theorem c5_witness :
    generate_gamma_table powfModel ⟨"u8", F64.finite 1, 2, none, none⟩ =
      Except.error GammaError.tableTooSmall ∧
    ∃ t, generate_gamma_table powfModel ⟨"u8", F64.finite 1, 3, none, none⟩ =
      Except.ok t ∧ t.length = 3 ∧ t.get? 0 = some 0 := by
  have h := c5_small_size powfModel powfModel_spec 1 (by norm_num)
    (qpow2_neg1074_le 1 (by norm_num)) (le_qpow2_1024 1 (by norm_num))
  exact ⟨h.1 "u8" none none 2 (by norm_num), h.2 "u8" 255 none none rfl (by norm_num)⟩

/-- C6: whenever the `f64` comparison `gamma <= 0.0` holds (so for
`gamma = 0`, `gamma = -0.0` and every negative gamma), generation fails
with `nonPositiveExponent` regardless of every other field — the
exponent check is the first check performed. -/
theorem c6_nonpositive_exponent (fpow : F64 → F64 → F64) (et : String) (gamma : F64)
    (size : ℕ) (mv : Option ℕ) (dec : Option Bool)
    (h : fle gamma (F64.finite 0) = true) :
    generate_gamma_table fpow ⟨et, gamma, size, mv, dec⟩ =
      Except.error GammaError.nonPositiveExponent := by
  simp only [generate_gamma_table, h, if_true]

/-- C6 witness: exponent `0` and exponent `-1`, with other fields varied
(including invalid ones, showing the check fires first). -/
theorem c6_witness :
    generate_gamma_table powfModel ⟨"u8", F64.finite 0, 10, none, none⟩ =
      Except.error GammaError.nonPositiveExponent ∧
    generate_gamma_table powfModel ⟨"u64", F64.finite (-1), 2, some 500, some true⟩ =
      Except.error GammaError.nonPositiveExponent :=
  ⟨c6_nonpositive_exponent powfModel "u8" (F64.finite 0) 10 none none (by decide),
   c6_nonpositive_exponent powfModel "u64" (F64.finite (-1)) 2 (some 500) (some true)
     (by decide)⟩

/-- C7 counterexample.  Encode and Decode tables can be *identical* even
for exponent `≠ 1`: with gamma 2, size 3, ceiling 2 both tables are
`[0, 1, 2]`.  The `powf` model is correctly rounded at every queried
point (`pow(1/2, 2) = 1/4` exactly and `pow(1/2, 1/2)` is the 53-bit
rounding of `√½`), so a real libm computes the same tables: encode gives
`round(0.25 * 2) = round(0.5) = 1` (ties away from zero) and decode
gives `round(0.7071… * 2) = 1`.  Hence "the two tables disagree at some
interior index" fails. -/
theorem c7_counterexample :
    ¬ (∀ (fpow : F64 → F64 → F64), PowfSpec fpow →
      ∀ (g : ℚ) (size maxv : ℕ), 0 < g → g ≠ 1 → 3 ≤ size → size < 2 ^ 64 →
        ∃ i, 0 < i ∧ i < size - 1 ∧
          (generate_table_values fpow size (F64.finite g) maxv false).get? i ≠
          (generate_table_values fpow size (F64.finite g) maxv true).get? i) := by
  intro hclaim
  obtain ⟨i, -, -, hne⟩ := hclaim powfModel powfModel_spec 2 3 2 (by norm_num)
    (by norm_num) (by norm_num) (by norm_num)
  apply hne
  rw [show generate_table_values powfModel 3 (F64.finite 2) 2 false =
        generate_table_values powfModel 3 (F64.finite 2) 2 true by decide]

/-- C7 (amended): for every valid configuration (genuine positive finite
gamma, size ≥ 3, `u64`-ranged ceiling) the Encode and Decode tables agree
exactly at index `0` and at index `size - 1`; interior agreement or
disagreement depends on `powf` values the code does not pin down, and
rounding can collapse the two tables even when the exponent is not 1. -/
theorem c7_endpoint_agreement (fpow : F64 → F64 → F64) (hspec : PowfSpec fpow)
    (g : ℚ) (hg : 0 < g) (hglo : qpow2 (-1074) ≤ g) (hghi : g ≤ qpow2 1024)
    (size maxv : ℕ) (h3 : 3 ≤ size) (h64 : size < 2 ^ 64) (hmax : maxv < 2 ^ 64) :
    (generate_table_values fpow size (F64.finite g) maxv false).get? 0 =
      (generate_table_values fpow size (F64.finite g) maxv true).get? 0 ∧
    (generate_table_values fpow size (F64.finite g) maxv false).get? (size - 1) =
      (generate_table_values fpow size (F64.finite g) maxv true).get? (size - 1) := by
  constructor
  · rw [gtv_first fpow size _ maxv false hspec.1
        (gammaExponent_FPos _ g rfl hg hglo hghi false) h3 h64,
      gtv_first fpow size _ maxv true hspec.1
        (gammaExponent_FPos _ g rfl hg hglo hghi true) h3 h64]
  · obtain ⟨m1, hm1, hb1, hl1⟩ := gtv_last fpow size _ maxv false hspec.2 h3 h64 hmax
    obtain ⟨m2, hm2, hb2, hl2⟩ := gtv_last fpow size _ maxv true hspec.2 h3 h64 hmax
    rw [hl1, hl2]
    have hq : (m1:ℚ) = (m2:ℚ) := by rw [← hm1, ← hm2]
    have hn : m1 = m2 := by exact_mod_cast hq
    rw [hn]

/-- C7 witness. -/
theorem c7_witness :
    (generate_table_values powfModel 3 (F64.finite 2) 2 false).get? 0 =
      (generate_table_values powfModel 3 (F64.finite 2) 2 true).get? 0 ∧
    (generate_table_values powfModel 3 (F64.finite 2) 2 false).get? 2 =
      (generate_table_values powfModel 3 (F64.finite 2) 2 true).get? 2 :=
  c7_endpoint_agreement powfModel powfModel_spec 2 (by norm_num)
    (qpow2_neg1074_le 2 (by norm_num)) (le_qpow2_1024 2 (by norm_num))
    3 2 (by norm_num) (by norm_num) (by norm_num)

/-- C8: the embedded generation is a pure function of the configuration,
so two calls with identical configurations (and the same platform
`powf`) return identical tables, entry for entry. -/
theorem c8_deterministic (fpow : F64 → F64 → F64) (input : GammaTableInput)
    (t₁ t₂ : List ℕ) (h₁ : generate_gamma_table fpow input = Except.ok t₁)
    (h₂ : generate_gamma_table fpow input = Except.ok t₂) :
    t₁ = t₂ ∧ ∀ i, t₁.get? i = t₂.get? i := by
  rw [h₁] at h₂
  injection h₂ with h
  exact ⟨h, fun i => by rw [h]⟩

/-- C8 witness. -/
theorem c8_witness :
    ([0, 1, 2] : List ℕ) = [0, 1, 2] ∧
    ∀ i, ([0, 1, 2] : List ℕ).get? i = ([0, 1, 2] : List ℕ).get? i :=
  c8_deterministic powfModel ⟨"u8", F64.finite 1, 3, none, none⟩ [0, 1, 2] [0, 1, 2]
    (by rfl) (by rfl)

/-- C9: a NaN gamma passes the validator's positivity check, because the
`f64` comparison `gamma <= 0.0` is false for NaN; with the other fields
valid, generation therefore returns a table instead of the
`nonPositiveExponent` error. -/
theorem c9_nan_gamma (fpow : F64 → F64 → F64) (et : String) (L size : ℕ)
    (mv : Option ℕ) (dec : Option Bool)
    (hL : get_integer_type_max_value et = some L)
    (hmv : mv.getD (usizeSub1 size) ≤ L) (h3 : 3 ≤ size) :
    fle F64.nan (F64.finite 0) = false ∧
    generate_gamma_table fpow ⟨et, F64.nan, size, mv, dec⟩ =
      Except.ok (generate_table_values fpow size F64.nan (mv.getD (usizeSub1 size))
        (dec.getD false)) :=
  ⟨rfl, generate_ok fpow ⟨et, F64.nan, size, mv, dec⟩ L rfl h3 hL hmv⟩

/-- C9 witness. -/
theorem c9_witness :
    fle F64.nan (F64.finite 0) = false ∧
    generate_gamma_table powfModel ⟨"u8", F64.nan, 3, none, none⟩ =
      Except.ok (generate_table_values powfModel 3 F64.nan ((none : Option ℕ).getD
        (usizeSub1 3)) ((none : Option Bool).getD false)) :=
  c9_nan_gamma powfModel "u8" 255 3 none none rfl (by decide) (by norm_num)

/-- C10: the Decode-mode table with exponent gamma is entry-for-entry the
Encode-mode table whose exponent is the `f64` quotient `1.0 / gamma`:
the two modes differ only in that substitution before the per-index
loop.  (The equality is definitional; the positivity hypothesis mirrors
the claim's wording.) -/
theorem c10_decode_is_encode_of_inverse (fpow : F64 → F64 → F64) (size maxv : ℕ)
    (g : ℚ) (hg : 0 < g) :
    generate_table_values fpow size (F64.finite g) maxv true =
      generate_table_values fpow size (fdiv (F64.finite 1) (F64.finite g)) maxv false := by
  simp [generate_table_values]

/-- C10 witness. -/
theorem c10_witness :
    generate_table_values powfModel 4 (F64.finite 2) 9 true =
      generate_table_values powfModel 4 (fdiv (F64.finite 1) (F64.finite 2)) 9 false :=
  c10_decode_is_encode_of_inverse powfModel 4 9 2 (by norm_num)
